import Mathlib

/-!
Verification of the slicing-tree floorplanner (SNode.h and the driver file).

The C++ code is shallowly embedded: `float` becomes `ℚ` (the algorithms only
use comparisons, additions, multiplications and divisions, which are exact on
the concrete inputs considered), `std::list<Dimensions>` becomes
`List Dimensions`, the list iterators stored in `rSelected`/`lSelected` become
the pointed-to `Dimensions` value (`Option Dimensions`), `NULL` child pointers
become `Option STree`, and a C++ `throw` of a string literal becomes
`Except.error` of that string.  A null-pointer dereference (undefined
behaviour) is modelled as `Option.none`.
-/

/-- Embedding of `struct Dimensions` (SNode.h lines 17-23): a (height, width)
pair plus the two iterator back-pointers `rSelected`/`lSelected`.  An iterator
into a child's `sizes` list is modelled by the value of the element it points
to, so the type is recursive and is declared as an inductive. -/
inductive Dimensions : Type where
  | mk (height width : ℚ) (rSelected lSelected : Option Dimensions)

/-- Accessor for the `height` field of `Dimensions`. -/
def Dimensions.height : Dimensions → ℚ
  | .mk h _ _ _ => h

/-- Accessor for the `width` field of `Dimensions`. -/
def Dimensions.width : Dimensions → ℚ
  | .mk _ w _ _ => w

/-- Accessor for the `rSelected` field of `Dimensions`. -/
def Dimensions.rSel : Dimensions → Option Dimensions
  | .mk _ _ r _ => r

/-- Accessor for the `lSelected` field of `Dimensions`. -/
def Dimensions.lSel : Dimensions → Option Dimensions
  | .mk _ _ _ l => l

/-- Embedding of `operator==` on `Dimensions` (SNode.h lines 274-277): equality
of the `height` and `width` fields only (the iterator fields are ignored). -/
def sameWH (a b : Dimensions) : Prop :=
  a.height = b.height ∧ a.width = b.width

instance (a b : Dimensions) : Decidable (sameWH a b) := by
  unfold sameWH; infer_instance

/-- `dominates p q` states that `p` weakly dominates `q`: `p` is no larger in
both height and width (the comparison used by `addToDimensions`). -/
def dominates (p q : Dimensions) : Prop :=
  p.height ≤ q.height ∧ p.width ≤ q.width

instance (a b : Dimensions) : Decidable (dominates a b) := by
  unfold dominates; infer_instance

/-- The no-domination invariant of a shape curve: no point of the list weakly
dominates another point with a different (width, height) value. -/
def Invariant (l : List Dimensions) : Prop :=
  ∀ p ∈ l, ∀ q ∈ l, ¬ sameWH p q → ¬ dominates p q

instance (l : List Dimensions) : Decidable (Invariant l) := by
  unfold Invariant; infer_instance

/-- Embedding of `SNode::addToDimensions` (SNode.h lines 220-246).  The C++
method scans `sizes` from the front: an element equal to the candidate or
weakly dominating it causes an immediate `return false` (keeping whatever
erasures already happened before that element); an element weakly dominated by
the candidate is erased; otherwise the scan advances.  If the scan reaches the
end the candidate is appended and `true` is returned.  The pair returned here
is (the C++ return value, the final contents of `sizes`). -/
def addToDimensions : List Dimensions → Dimensions → Bool × List Dimensions
  | [], cand => (true, [cand])
  | item :: rest, cand =>
    if sameWH cand item then (false, item :: rest)
    else if item.height ≤ cand.height ∧ item.width ≤ cand.width then
      (false, item :: rest)
    else if cand.height ≤ item.height ∧ cand.width ≤ item.width then
      addToDimensions rest cand
    else
      let r := addToDimensions rest cand
      (r.1, item :: r.2)

/-- One insertion step of the merge loops: offer a candidate to
`addToDimensions` and keep the resulting list. -/
def insStep (acc : List Dimensions) (cand : Dimensions) : List Dimensions :=
  (addToDimensions acc cand).2

/-- Candidate built in the vertical branch of `SNode::calcMinArea`
(SNode.h lines 147-151): widths add, height is the larger of the two, and the
iterators to the two source points are recorded. -/
def vCand (i j : Dimensions) : Dimensions :=
  .mk (if i.height ≥ j.height then i.height else j.height)
    (i.width + j.width) (some i) (some j)

/-- Candidate built in the horizontal branch of `SNode::calcMinArea`
(SNode.h lines 162-166): heights add, width is the larger of the two. -/
def hCand (i j : Dimensions) : Dimensions :=
  .mk (i.height + j.height)
    (if i.width ≥ j.width then i.width else j.width) (some i) (some j)

/-- The candidate for one (right point, left point) pair, by cut kind:
the `name == 'V'` test of SNode.h line 141 selects the vertical formula,
anything else falls to the horizontal branch. -/
def mkCand (name : Char) (i j : Dimensions) : Dimensions :=
  if name = 'V' then vCand i j else hCand i j

/-- Embedding of the curve-merging double loops of `SNode::calcMinArea`
(SNode.h lines 141-170): for each point `i` of the right child's curve and
each point `j` of the left child's curve, offer the combined candidate to
`addToDimensions`, starting from the cleared (empty) list. -/
def mergeCurves (name : Char) (rsizes lsizes : List Dimensions) :
    List Dimensions :=
  rsizes.foldl (fun acc i => lsizes.foldl (fun acc2 j => insStep acc2 (mkCand name i j)) acc) []

/-- The flattened cross-product candidate list: one candidate per
(right point, left point) pair, in loop order. -/
def candList (name : Char) (rsizes lsizes : List Dimensions) :
    List Dimensions :=
  rsizes.flatMap (fun i => lsizes.map (fun j => mkCand name i j))

/-- Embedding of the best-area scan of `SNode::calcMinArea`
(SNode.h lines 173-183): running (best, bestArea) updated whenever a strictly
smaller area is found. -/
def scanBest : List Dimensions → Dimensions → ℚ → Dimensions × ℚ
  | [], b, bA => (b, bA)
  | d :: ds, b, bA =>
    if d.height * d.width < bA then scanBest ds d (d.height * d.width)
    else scanBest ds b bA

/-- The result of evaluating an operator node: the merged curve and the
`area`, `selected` and `aspectRatio` fields written by `calcMinArea`. -/
structure OpResult where
  sizes : List Dimensions
  area : ℚ
  selected : Dimensions
  aspectRatio : ℚ

/-- Evaluation of one operator node by `SNode::calcMinArea`
(SNode.h lines 126-188), given the children's curves: merge the curves, then
dereference `sizes.begin()` (undefined behaviour, modelled as `none`, when the
merged list is empty) and scan for the minimum-area point. -/
def evalOp (name : Char) (rsizes lsizes : List Dimensions) : Option OpResult :=
  match mergeCurves name rsizes lsizes with
  | [] => none
  | d :: ds =>
    let s := scanBest (d :: ds) d (d.height * d.width)
    some ⟨d :: ds, s.2, s.1, s.1.height / s.1.width⟩

/-- Embedding of `SNode::calcWandH` (SNode.h lines 196-211).  The C++ computes
`size.height = sqrt(aspectRatio * area)`; a real square root is not
representable in `ℚ`, so the computed height is taken as the parameter `h`
(theorems that depend on its value pin it down by `h * h = aspectRatio * area`
and `0 ≤ h`).  The width is `area / h`; if the cell is not fixed the rotated
point (height and width swapped) is pushed as well. -/
def calcWandH (area h : ℚ) (fixed : Bool) : List Dimensions :=
  if fixed then [.mk h (area / h) none none]
  else [.mk h (area / h) none none, .mk (area / h) h none none]

/-- A leaf cell: the data of an operand `SNode` (name, area, aspectRatio,
fixed flag) together with the `sizes` curve computed at construction by
`calcWandH`. -/
structure Cell where
  name : Char
  area : ℚ
  aspectRatio : ℚ
  fixed : Bool
  sizes : List Dimensions

/-- Convenience constructor for a leaf cell, mirroring the operand
constructors of `SNode` (SNode.h lines 60-97): `h` stands for the computed
`sqrt(aspectRatio * area)`. -/
def mkCell (name : Char) (area aspectRatio : ℚ) (fixed : Bool) (h : ℚ) :
    Cell :=
  ⟨name, area, aspectRatio, fixed, calcWandH area h fixed⟩

/-- A slicing tree as built by `generateTree`: leaves are operand cells;
an operator node has a name and `right`/`left` child pointers which, like the
C++ `SNode *` members, may be `NULL` (`none`). -/
inductive STree : Type where
  | leaf (cell : Cell)
  | op (name : Char) (right left : Option STree)

/-- Recursive evaluation `root->calcMinArea()` on a tree: a leaf returns its
stored `sizes` and `area`; an operator merges its children's curves and takes
the minimum area.  (The C++ recurses only into children with
`isOperator` set, but calling `calcMinArea` on a leaf just returns its stored
area, so unconditional recursion has identical semantics.)  A `NULL` child
dereference (SNode.h line 131/135) is modelled as `none`. -/
def calcTree : STree → Option (List Dimensions × ℚ)
  | .leaf cell => some (cell.sizes, cell.area)
  | .op name (some rt) (some lt) =>
    match calcTree rt, calcTree lt with
    | some (rs, _), some (ls, _) =>
      (evalOp name rs ls).map (fun o => (o.sizes, o.area))
    | _, _ => none
  | .op _ _ _ => none

/-- The operator-character test used throughout the driver file:
a character is an operator iff it is `'V'` or `'H'`. -/
def isOpChar (c : Char) : Bool :=
  c = 'V' ∨ c = 'H'

/-- The adjacent-repeat lookahead of `isValidNPE` (driver file lines 68-74):
when a next character exists, is it the same as the current one? -/
def adjSame (c : Char) : List Char → Bool
  | c2 :: _ => c = c2
  | [] => false

/-- Embedding of the scan loop of `isValidNPE` (driver file lines 58-97) with
the two `int` counters as explicit accumulators.  For an operator character:
fail on an adjacent identical operator, then increment the operator count; for
an operand: fail if the same character occurs later in the string, then
increment the operand count; after either branch fail if
`operands <= operators`; at the end succeed iff
`operators == operands - 1` (C++ `int` arithmetic, hence `ℤ`). -/
def isValidAux : ℤ → ℤ → List Char → Bool
  | operands, operators, [] => operators = operands - 1
  | operands, operators, c :: rest =>
    if isOpChar c then
      if adjSame c rest then false
      else if operands ≤ operators + 1 then false
      else isValidAux operands (operators + 1) rest
    else
      if rest.contains c then false
      else if operands + 1 ≤ operators then false
      else isValidAux (operands + 1) operators rest

/-- Embedding of `isValidNPE` (driver file lines 58-97). -/
def isValidNPE (npe : String) : Bool :=
  isValidAux 0 0 npe.data

/-- The cell lookup loop of `generateTree` (driver file lines 195-202): scan
the whole list and keep the last cell whose name matches. -/
def lookupCell (cells : List Cell) (c : Char) : Option Cell :=
  cells.foldl (fun acc cell => if cell.name = c then some cell else acc) none

/-- One frame of the construction state of `generateTree`: an operator node on
the path from the current node up to the root.  `right` is the node's
completed right subtree when its right child has been fully built and
construction moved on to its left side, and `none` while the node's right
subtree is still missing or under construction (the frame above it holds that
work).  The top frame is the C++ `current` pointer; the parent pointers are
the links between consecutive frames. -/
structure Frame where
  op : Char
  right : Option STree

/-- Completion of a subtree during `generateTree`'s scan: attaching a finished
subtree `t` to the top frame.  If the frame's right child is missing, `t`
becomes the right child (`current->right = child`, driver line 216) and the
walk stops; otherwise `t` becomes the left child, the node is finished
(`current->left = child`, line 208) and the walk-up loop of lines 209-212
(`while current->left` is set, move to the parent) continues with the finished
node, popping the frame.  Popping the last frame finishes the root. -/
def completeUp (t : STree) : List Frame → List Frame ⊕ STree
  | [] => .inr t
  | f :: fs =>
    match f.right with
    | none => .inl ({ op := f.op, right := some t } :: fs)
    | some r => completeUp (.op f.op (some r) (some t)) fs

/-- The character loop of `generateTree` (driver file lines 175-225), scanning
the reversed NPE.  An operator character pushes a new operator node which
becomes the new current node (a new frame).  An operand character is looked up
in `cells` (throwing `"Cell data not valid!"` when absent, line 221) and the
resulting leaf completes the current frame.  If the root completes while
characters remain, the C++ would overwrite already-assigned children; that
state is unreachable for a validated NPE and is modelled as an error. -/
def runChars (cells : List Cell) : List Frame → List Char →
    Except String (List Frame ⊕ STree)
  | fs, [] => .ok (.inl fs)
  | fs, c :: cs =>
    if isOpChar c then runChars cells (⟨c, none⟩ :: fs) cs
    else
      match lookupCell cells c with
      | none => .error "Cell data not valid!"
      | some cell =>
        match completeUp (.leaf cell) fs with
        | .inl fs2 => runChars cells fs2 cs
        | .inr t => if cs.isEmpty then .ok (.inr t) else .error "root completed early"

/-- Reading the tree rooted at `operators.front()` out of an unfinished frame
stack (the value `generateTree` returns when the scan ends before the root is
completed, e.g. for a single-operand NPE): each frame is an operator node with
its recorded right subtree; the frame below gets the partial node as its
missing child (right child when its `right` is `none`, left child
otherwise). -/
def readoutAux : STree → List Frame → STree
  | t, [] => t
  | t, f :: fs =>
    match f.right with
    | none => readoutAux (.op f.op (some t) none) fs
    | some r => readoutAux (.op f.op (some r) (some t)) fs

/-- Read the whole partial tree out of a frame stack; an empty stack would
make the C++ `operators.front()` undefined, modelled as `none`. -/
def readout : List Frame → Option STree
  | [] => none
  | f :: fs => some (readoutAux (.op f.op f.right none) fs)

/-- Embedding of `generateTree` (driver file lines 161-227): validate the NPE
(throwing `"Invalid NPE!"` otherwise), then scan the string from the back; the
first reversed character is pushed as an operator node unconditionally (the
`SNode(char)` constructor always sets `isOperator`, driver line 172), and the
remaining characters run the construction loop.  The returned tree is the one
rooted at `operators.front()`. -/
def generateTree (npe : String) (cells : List Cell) : Except String STree :=
  if isValidNPE npe = false then .error "Invalid NPE!"
  else
    match npe.data.reverse with
    | [] => .error "Invalid NPE!"
    | c0 :: rest =>
      match runChars cells [⟨c0, none⟩] rest with
      | .error e => .error e
      | .ok (.inr t) => .ok t
      | .ok (.inl fs) =>
        match readout fs with
        | some t => .ok t
        | none => .error "empty operator list"

/-- Embedding of `cost` (driver file lines 143-149): build the tree and
evaluate it; a null dereference during evaluation yields `none`. -/
def cost (npe : String) (cells : List Cell) : Except String (Option ℚ) :=
  match generateTree npe cells with
  | .error e => .error e
  | .ok root => .ok ((calcTree root).map (fun p => p.2))

/-- Modelled from the spec (section 4.4), which replaces the pointer-walk with
a stack-based builder: scan the NPE left to right; an operand pushes a leaf
for the looked-up cell (`UnknownCell` when absent); an operator pops two
nodes, the most recently pushed becoming the left child and the earlier one
the right child; at the end exactly one node must remain (`MalformedTree`
otherwise). -/
def stackBuildAux (cells : List Cell) : List Char → List STree →
    Except String STree
  | [], st =>
    match st with
    | [t] => .ok t
    | _ => .error "MalformedTree"
  | c :: cs, st =>
    if isOpChar c then
      match st with
      | b :: a :: st2 => stackBuildAux cells cs (.op c (some a) (some b) :: st2)
      | _ => .error "MalformedTree"
    else
      match lookupCell cells c with
      | none => .error "UnknownCell"
      | some cell => stackBuildAux cells cs (.leaf cell :: st)

/-- Modelled from the spec (section 4.4): the stack-based `build`, guarded by
the validator exactly as `build(npe, cells)` specifies. -/
def stackBuild (npe : String) (cells : List Cell) : Except String STree :=
  if isValidNPE npe = false then .error "InvalidExpression"
  else stackBuildAux cells npe.data []

/-- The left-right mirror image of a tree: children swapped at every operator
node. -/
def mirror : STree → STree
  | .leaf cell => .leaf cell
  | .op c none none => .op c none none
  | .op c (some r) none => .op c none (some (mirror r))
  | .op c none (some l) => .op c (some (mirror l)) none
  | .op c (some r) (some l) => .op c (some (mirror l)) (some (mirror r))

/-- Embedding of `operator<<` on `SNode` (SNode.h lines 255-266): an operator
node prints its left subtree, then its right subtree, then its name; a leaf
prints its name.  Printing a node with a `NULL` child dereferences it
(undefined behaviour, modelled as `none`). -/
def printTree : STree → Option (List Char)
  | .leaf cell => some [cell.name]
  | .op c (some r) (some l) =>
    match printTree l, printTree r with
    | some pl, some pr => some (pl ++ pr ++ [c])
    | _, _ => none
  | .op _ _ _ => none

/-- Abstract postfix expressions, used to relate the validator, the stack
semantics and the pointer-walk builder.  `oper c later earlier` is the
operator `c` applied to the subexpression pushed most recently (`later`,
whose characters come immediately before `c`) and the one pushed before it
(`earlier`). -/
inductive Expr : Type where
  | operand (c : Char)
  | oper (c : Char) (later earlier : Expr)

/-- Well-formedness of an expression: operator nodes carry `'V'` or `'H'`,
operand nodes do not. -/
def wfExpr : Expr → Prop
  | .operand c => isOpChar c = false
  | .oper c later earlier => isOpChar c = true ∧ wfExpr later ∧ wfExpr earlier

/-- The postfix string of an expression (the segment of the NPE it was parsed
from): earlier subexpression, later subexpression, then the operator. -/
def psE : Expr → List Char
  | .operand c => [c]
  | .oper c later earlier => psE earlier ++ psE later ++ [c]

/-- The stack automaton underlying postfix notation: operands push, an
operator pops the two most recent expressions (failing on underflow). -/
def stackParse : List Char → List Expr → Option (List Expr)
  | [], st => some st
  | c :: cs, st =>
    if isOpChar c then
      match st with
      | b :: a :: st2 => stackParse cs (.oper c b a :: st2)
      | _ => none
    else stackParse cs (.operand c :: st)

/-- The tree the C++ pointer-walk builds for an expression: the later
subexpression (scanned first in the reversed string) becomes the right child,
the earlier one the left child. -/
def toTreeC (cells : List Cell) : Expr → Option STree
  | .operand c => (lookupCell cells c).map .leaf
  | .oper c later earlier =>
    match toTreeC cells later, toTreeC cells earlier with
    | some tl, some te => some (.op c (some tl) (some te))
    | _, _ => none

/-- The tree the spec's stack semantics builds for an expression: the later
(most recently pushed) subexpression becomes the left child, the earlier one
the right child. -/
def toTreeS (cells : List Cell) : Expr → Option STree
  | .operand c => (lookupCell cells c).map .leaf
  | .oper c later earlier =>
    match toTreeS cells later, toTreeS cells earlier with
    | some tl, some te => some (.op c (some te) (some tl))
    | _, _ => none

/-- Number of operand characters, as the C++ `int` counter would have it. -/
def operandCount (cs : List Char) : ℤ :=
  (cs.countP (fun c => !isOpChar c) : ℤ)

/-- Number of operator characters, as the C++ `int` counter would have it. -/
def operatorCount (cs : List Char) : ℤ :=
  (cs.countP (fun c => isOpChar c) : ℤ)

/-- The validity conditions as the claim states them: every operand occurs
exactly once, no two adjacent characters are the same operator, operands
strictly outnumber operators at every non-empty prefix, and at the end the
operator count is the operand count minus one. -/
def specValidNPE (cs : List Char) : Prop :=
  (∀ c ∈ cs, isOpChar c = false → cs.count c = 1) ∧
  List.Chain' (fun a b => ¬ (isOpChar a = true ∧ a = b)) cs ∧
  (∀ n : ℕ, n < cs.length →
    operatorCount (cs.take (n+1)) < operandCount (cs.take (n+1))) ∧
  operatorCount cs = operandCount cs - 1

/-- The (width, height) value of a point, forgetting the back-pointers. -/
def wh (d : Dimensions) : ℚ × ℚ := (d.width, d.height)

/-- The (width, height) values of a curve, in order. -/
def whList (l : List Dimensions) : List (ℚ × ℚ) := l.map wh

/-- The curve viewed as a set of (width, height) pairs. -/
def whFinset (l : List Dimensions) : Finset (ℚ × ℚ) := (whList l).toFinset

/-- Weak domination on (width, height) pairs. -/
def domP (a b : ℚ × ℚ) : Prop := a.1 ≤ b.1 ∧ a.2 ≤ b.2

instance (a b : ℚ × ℚ) : Decidable (domP a b) := by
  unfold domP; infer_instance

/-- Strict domination on (width, height) pairs: weak domination between
distinct pairs. -/
def sdomP (a b : ℚ × ℚ) : Prop := domP a b ∧ a ≠ b

instance (a b : ℚ × ℚ) : Decidable (sdomP a b) := by
  unfold sdomP; infer_instance

/-- The Pareto-minimal elements of a set of pairs. -/
def minOf (S : Finset (ℚ × ℚ)) : Finset (ℚ × ℚ) :=
  S.filter (fun x => ∀ y ∈ S, ¬ sdomP y x)

/-- An antichain of pairs, as induced on (width, height) values by the curve
invariant. -/
def PairAntichain (S : Finset (ℚ × ℚ)) : Prop :=
  ∀ a ∈ S, ∀ b ∈ S, ¬ sdomP a b

/-- The concatenated postfix segments represented by a parse stack, bottom
segment first. -/
def segs (st : List Expr) : List Char := (st.reverse.map psE).join

/-! Section: Basic lemmas about the curve operations -/

lemma sameWH_refl (p : Dimensions) : sameWH p p := ⟨rfl, rfl⟩

lemma Invariant_of_cons {x : Dimensions} {l : List Dimensions}
    (h : Invariant (x :: l)) : Invariant l :=
  fun p hp q hq => h p (List.mem_cons_of_mem _ hp) q (List.mem_cons_of_mem _ hq)

lemma Invariant_sublist {l m : List Dimensions} (hs : l.Sublist m)
    (h : Invariant m) : Invariant l :=
  fun p hp q hq => h p (hs.mem hp) q (hs.mem hq)

/-- The inner `for j` loop over the left child's curve equals a flat fold over
the mapped candidate list. -/
lemma foldl_inner_map (f : Dimensions → Dimensions) :
    ∀ (L : List Dimensions) (acc : List Dimensions),
      L.foldl (fun acc2 j => insStep acc2 (f j)) acc = (L.map f).foldl insStep acc := by
  intro L acc
  rw [List.foldl_map]

/-- The nested merge loops of `calcMinArea` equal one fold of
`addToDimensions` over the flattened cross-product candidate list. -/
lemma mergeCurves_eq_foldl_candList (name : Char) (R L : List Dimensions) :
    mergeCurves name R L = (candList name R L).foldl insStep [] := by
  unfold mergeCurves candList
  generalize ([] : List Dimensions) = acc
  induction R generalizing acc with
  | nil => rfl
  | cons r R ih =>
    simp only [List.foldl_cons, List.flatMap_cons, List.foldl_append]
    rw [foldl_inner_map (fun j => mkCand name r j) L acc, ih]

lemma mkCand_V (r l : Dimensions) :
    mkCand 'V' r l =
      .mk (max r.height l.height) (r.width + l.width) (some r) (some l) := by
  unfold mkCand vCand
  rw [if_pos rfl]
  rcases le_or_lt l.height r.height with h | h
  · rw [if_pos h, max_eq_left h]
  · rw [if_neg (not_le.mpr h), max_eq_right (le_of_lt h)]

lemma mkCand_H (r l : Dimensions) :
    mkCand 'H' r l =
      .mk (r.height + l.height) (max r.width l.width) (some r) (some l) := by
  unfold mkCand hCand
  rw [if_neg (by decide : ¬ ('H' : Char) = 'V')]
  rcases le_or_lt l.width r.width with h | h
  · rw [if_pos h, max_eq_left h]
  · rw [if_neg (not_le.mpr h), max_eq_right (le_of_lt h)]

/-- C2: every candidate offered to `addToDimensions` by `calcMinArea` comes
from one (right point, left point) pair, each pair is offered exactly once
(the flattened cross-product list has exactly one entry per pair), a V node
combines as (width sum, height max), an H node as (width max, height sum),
and the candidate records the source points `r` and `l` in its
`rSelected`/`lSelected` fields. -/
theorem calcMinArea_offers_cross_product (name : Char) (R L : List Dimensions) :
    mergeCurves name R L =
      (R.flatMap (fun r => L.map (fun l => mkCand name r l))).foldl insStep []
    ∧ (∀ r l, mkCand 'V' r l =
        .mk (max r.height l.height) (r.width + l.width) (some r) (some l))
    ∧ (∀ r l, mkCand 'H' r l =
        .mk (r.height + l.height) (max r.width l.width) (some r) (some l)) :=
  ⟨mergeCurves_eq_foldl_candList name R L, mkCand_V, mkCand_H⟩

/-- C7: the two-point curve pushed by `calcWandH` (the computed size and its
rotation), or the one-point curve of a fixed cell, never contains two points
with different (width, height) values where one weakly dominates the other;
with aspect ratio 1 the two pushed points coincide and the invariant holds
trivially.  `h` stands for the computed `sqrt(aspectRatio * area)`; the
invariant holds for every value of `h`. -/
theorem calcWandH_no_domination (area h : ℚ) (fixed : Bool) :
    Invariant (calcWandH area h fixed) := by
  intro p hp q hq hne hdom
  cases fixed with
  | true =>
    simp [calcWandH] at hp hq
    subst hp
    subst hq
    exact hne (sameWH_refl _)
  | false =>
    simp [calcWandH] at hp hq
    rcases hp with rfl | rfl <;> rcases hq with rfl | rfl
    · exact hne (sameWH_refl _)
    · simp only [dominates, sameWH, Dimensions.height, Dimensions.width] at hdom hne
      exact hne ⟨le_antisymm hdom.1 hdom.2, le_antisymm hdom.2 hdom.1⟩
    · simp only [dominates, sameWH, Dimensions.height, Dimensions.width] at hdom hne
      exact hne ⟨le_antisymm hdom.1 hdom.2, le_antisymm hdom.2 hdom.1⟩
    · exact hne (sameWH_refl _)

/-! Section: Non-emptiness of merged curves (C10) -/

lemma addToDimensions_ne_nil : ∀ (l : List Dimensions) (c : Dimensions),
    (addToDimensions l c).2 ≠ [] := by
  intro l c
  induction l with
  | nil => simp [addToDimensions]
  | cons item rest ih =>
    unfold addToDimensions
    split
    · simp
    · split
      · simp
      · split
        · exact ih
        · simp

lemma foldl_insStep_ne_nil : ∀ (cs acc : List Dimensions),
    (acc ≠ [] ∨ cs ≠ []) → cs.foldl insStep acc ≠ [] := by
  intro cs
  induction cs with
  | nil =>
    intro acc h
    rcases h with h | h
    · simpa using h
    · exact absurd rfl h
  | cons c cs ih =>
    intro acc _
    simp only [List.foldl_cons]
    exact ih (insStep acc c) (Or.inl (addToDimensions_ne_nil acc c))

lemma candList_ne_nil (name : Char) {R L : List Dimensions}
    (hR : R ≠ []) (hL : L ≠ []) : candList name R L ≠ [] := by
  rcases R with _ | ⟨r, R⟩
  · exact absurd rfl hR
  rcases L with _ | ⟨l, L⟩
  · exact absurd rfl hL
  simp [candList]

lemma mergeCurves_ne_nil (name : Char) {R L : List Dimensions}
    (hR : R ≠ []) (hL : L ≠ []) : mergeCurves name R L ≠ [] := by
  rw [mergeCurves_eq_foldl_candList]
  exact foldl_insStep_ne_nil _ _ (Or.inr (candList_ne_nil name hR hL))

/-- C10: when both children carry non-empty `sizes` lists, the merged list is
non-empty when the best-area scan begins, so the `sizes.begin()` dereference
of SNode.h line 173-174 (modelled by the `[] => none` branch of `evalOp`)
never reads from an empty list and the evaluation produces a result. -/
theorem calcMinArea_scan_list_nonempty (name : Char) (R L : List Dimensions)
    (hR : R ≠ []) (hL : L ≠ []) :
    mergeCurves name R L ≠ [] ∧ ∃ out, evalOp name R L = some out := by
  refine ⟨mergeCurves_ne_nil name hR hL, ?_⟩
  unfold evalOp
  rcases hm : mergeCurves name R L with _ | ⟨d, ds⟩
  · exact absurd hm (mergeCurves_ne_nil name hR hL)
  · exact ⟨_, rfl⟩

/-- Witness for C10 at concrete one-point children. -/
theorem calcMinArea_scan_list_nonempty_witness :
    mergeCurves 'V' [.mk 2 2 none none] [.mk 1 4 none none] ≠ [] ∧
      ∃ out, evalOp 'V' [.mk 2 2 none none] [.mk 1 4 none none] = some out :=
  calcMinArea_scan_list_nonempty 'V' _ _ (List.cons_ne_nil _ _)
    (List.cons_ne_nil _ _)

/-! Section: The best-area scan (C5) -/

/-- Specification of the scan loop of SNode.h lines 173-183, relative to a
running best whose area is `bA`: the final best's area is its own product,
the final best is the running best or comes from the list, its area is a lower
bound of `bA` and of every area in the list, and it is the first entry
attaining the final area (every list entry strictly before it has a strictly
larger area). -/
lemma scanBest_spec : ∀ (l : List Dimensions) (b : Dimensions) (bA : ℚ),
    bA = b.height * b.width →
    (scanBest l b bA).2 = (scanBest l b bA).1.height * (scanBest l b bA).1.width ∧
    ((scanBest l b bA).1 = b ∨ (scanBest l b bA).1 ∈ l) ∧
    (scanBest l b bA).2 ≤ bA ∧
    (∀ q ∈ l, (scanBest l b bA).2 ≤ q.height * q.width) ∧
    ((scanBest l b bA).1 = b ∨
      ∃ l1 l2, l = l1 ++ (scanBest l b bA).1 :: l2 ∧ (scanBest l b bA).2 < bA ∧
        ∀ q ∈ l1, (scanBest l b bA).2 < q.height * q.width) := by
  intro l
  induction l with
  | nil =>
    intro b bA hb
    exact ⟨hb, Or.inl rfl, le_refl _, by simp, Or.inl rfl⟩
  | cons d ds ih =>
    intro b bA hb
    by_cases hlt : d.height * d.width < bA
    · have hunf : scanBest (d :: ds) b bA =
          if d.height * d.width < bA then scanBest ds d (d.height * d.width)
          else scanBest ds b bA := rfl
      have hstep : scanBest (d :: ds) b bA = scanBest ds d (d.height * d.width) := by
        rw [hunf, if_pos hlt]
      obtain ⟨e1, e2, e3, e4, e5⟩ := ih d (d.height * d.width) rfl
      rw [hstep]
      refine ⟨e1, ?_, le_of_lt (lt_of_le_of_lt e3 hlt), ?_, ?_⟩
      · rcases e2 with e2 | e2
        · exact Or.inr (by rw [e2]; exact List.mem_cons_self _ _)
        · exact Or.inr (List.mem_cons_of_mem _ e2)
      · intro q hq
        rcases List.mem_cons.mp hq with rfl | hq
        · exact e3
        · exact e4 q hq
      · rcases e5 with e5 | e5
        · refine Or.inr ⟨[], ds, ?_, lt_of_le_of_lt e3 hlt, by simp⟩
          rw [e5]
          rfl
        · obtain ⟨l1, l2, hds, hlt2, hall⟩ := e5
          refine Or.inr ⟨d :: l1, l2, congrArg (fun t => d :: t) hds, lt_trans hlt2 hlt, ?_⟩
          intro q hq
          rcases List.mem_cons.mp hq with rfl | hq
          · exact hlt2
          · exact hall q hq
    · have hunf : scanBest (d :: ds) b bA =
          if d.height * d.width < bA then scanBest ds d (d.height * d.width)
          else scanBest ds b bA := rfl
      have hstep : scanBest (d :: ds) b bA = scanBest ds b bA := by
        rw [hunf, if_neg hlt]
      obtain ⟨e1, e2, e3, e4, e5⟩ := ih b bA hb
      rw [hstep]
      refine ⟨e1, ?_, e3, ?_, ?_⟩
      · rcases e2 with e2 | e2
        · exact Or.inl e2
        · exact Or.inr (List.mem_cons_of_mem _ e2)
      · intro q hq
        rcases List.mem_cons.mp hq with rfl | hq
        · exact le_trans e3 (not_lt.mp hlt)
        · exact e4 q hq
      · rcases e5 with e5 | e5
        · exact Or.inl e5
        · obtain ⟨l1, l2, hds, hlt2, hall⟩ := e5
          refine Or.inr ⟨d :: l1, l2, congrArg (fun t => d :: t) hds, hlt2, ?_⟩
          intro q hq
          rcases List.mem_cons.mp hq with rfl | hq
          · exact lt_of_lt_of_le hlt2 (not_lt.mp hlt)
          · exact hall q hq

/-- C5: when the merged curve is non-empty, `calcMinArea` selects a point of
the curve whose area (width times height) is a lower bound of every point's
area, ties broken in favour of the first such point in list order (every
earlier point has strictly larger area); the node's `area` becomes that
product, its `aspectRatio` becomes selected height over selected width, and
the area is what the evaluation returns. -/
theorem calcMinArea_selects_min_area (name : Char) (R L : List Dimensions)
    (d : Dimensions) (ds : List Dimensions)
    (h : mergeCurves name R L = d :: ds) :
    ∃ out, evalOp name R L = some out ∧
      out.sizes = d :: ds ∧
      out.selected ∈ out.sizes ∧
      out.area = out.selected.height * out.selected.width ∧
      out.aspectRatio = out.selected.height / out.selected.width ∧
      (∀ q ∈ out.sizes, out.area ≤ q.height * q.width) ∧
      ∃ l1 l2, out.sizes = l1 ++ out.selected :: l2 ∧
        ∀ q ∈ l1, out.area < q.height * q.width := by
  have hunf : scanBest (d :: ds) d (d.height * d.width) =
      if d.height * d.width < d.height * d.width then
        scanBest ds d (d.height * d.width)
      else scanBest ds d (d.height * d.width) := rfl
  have hstep : scanBest (d :: ds) d (d.height * d.width) =
      scanBest ds d (d.height * d.width) := by
    rw [hunf, if_neg (lt_irrefl _)]
  obtain ⟨e1, e2, e3, e4, e5⟩ := scanBest_spec ds d (d.height * d.width) rfl
  have hout : evalOp name R L =
      some ⟨d :: ds, (scanBest (d :: ds) d (d.height * d.width)).2,
        (scanBest (d :: ds) d (d.height * d.width)).1,
        (scanBest (d :: ds) d (d.height * d.width)).1.height /
          (scanBest (d :: ds) d (d.height * d.width)).1.width⟩ := by
    unfold evalOp
    rw [h]
  refine ⟨_, hout, rfl, ?_, ?_, rfl, ?_, ?_⟩
  · rw [hstep]
    rcases e2 with e2 | e2
    · rw [e2]
      exact List.mem_cons_self _ _
    · exact List.mem_cons_of_mem _ e2
  · rw [hstep]
    exact e1
  · rw [hstep]
    intro q hq
    rcases List.mem_cons.mp hq with rfl | hq
    · exact e3
    · exact e4 q hq
  · rw [hstep]
    rcases e5 with e5 | e5
    · exact ⟨[], ds, by simp [e5], by simp⟩
    · obtain ⟨l1, l2, hds, hlt2, hall⟩ := e5
      refine ⟨d :: l1, l2, congrArg (fun t => d :: t) hds, ?_⟩
      intro q hq
      rcases List.mem_cons.mp hq with rfl | hq
      · exact hlt2
      · exact hall q hq

/-- Witness for C5: a vertical merge of the one-point curve (h 2, w 2) with
the two-point curve (h 4, w 1), (h 1, w 4). -/
theorem calcMinArea_selects_min_area_witness :
    ∃ out, evalOp 'V' [.mk 2 2 none none]
        [.mk 4 1 none none, .mk 1 4 none none] = some out ∧
      out.sizes = mkCand 'V' (.mk 2 2 none none) (.mk 4 1 none none) ::
        [mkCand 'V' (.mk 2 2 none none) (.mk 1 4 none none)] ∧
      out.selected ∈ out.sizes ∧
      out.area = out.selected.height * out.selected.width ∧
      out.aspectRatio = out.selected.height / out.selected.width ∧
      (∀ q ∈ out.sizes, out.area ≤ q.height * q.width) ∧
      ∃ l1 l2, out.sizes = l1 ++ out.selected :: l2 ∧
        ∀ q ∈ l1, out.area < q.height * q.width :=
  calcMinArea_selects_min_area 'V' _ _ _ _ (by
    norm_num [mergeCurves, insStep, addToDimensions, mkCand, vCand, sameWH,
      Dimensions.height, Dimensions.width])

/-! Section: The insert operation (C1) -/

lemma sameWH_comm {a b : Dimensions} (h : sameWH a b) : sameWH b a :=
  ⟨h.1.symm, h.2.symm⟩

lemma sameWH_dominates {a b : Dimensions} (h : sameWH a b) : dominates a b :=
  ⟨le_of_eq h.1, le_of_eq h.2⟩

lemma dominates_trans {a b c : Dimensions} (h1 : dominates a b)
    (h2 : dominates b c) : dominates a c :=
  ⟨le_trans h1.1 h2.1, le_trans h1.2 h2.2⟩

/-- The one-step unfolding of `addToDimensions` on a non-empty list. -/
lemma addToDimensions_cons (item : Dimensions) (rest : List Dimensions)
    (cand : Dimensions) :
    addToDimensions (item :: rest) cand =
      if sameWH cand item then (false, item :: rest)
      else if item.height ≤ cand.height ∧ item.width ≤ cand.width then
        (false, item :: rest)
      else if cand.height ≤ item.height ∧ cand.width ≤ item.width then
        addToDimensions rest cand
      else ((addToDimensions rest cand).1,
        item :: (addToDimensions rest cand).2) := rfl

/-- On a curve satisfying the invariant, a candidate that equals an existing
point or is weakly dominated by one is rejected with the curve unchanged:
under the invariant no erasure can happen before the rejecting element is
reached. -/
lemma addTo_reject : ∀ (curve : List Dimensions) (cand : Dimensions),
    Invariant curve →
    (∃ p ∈ curve, sameWH p cand ∨ dominates p cand) →
    addToDimensions curve cand = (false, curve) := by
  intro curve
  induction curve with
  | nil =>
    intro cand _ hex
    simp at hex
  | cons item rest ih =>
    intro cand hinv hex
    rw [addToDimensions_cons]
    by_cases h1 : sameWH cand item
    · rw [if_pos h1]
    rw [if_neg h1]
    by_cases h2 : item.height ≤ cand.height ∧ item.width ≤ cand.width
    · rw [if_pos h2]
    rw [if_neg h2]
    have hrest : ∃ p ∈ rest, sameWH p cand ∨ dominates p cand := by
      obtain ⟨p, hp, hcase⟩ := hex
      rcases List.mem_cons.mp hp with rfl | hp2
      · rcases hcase with hcase | hcase
        · exact absurd (sameWH_comm hcase) h1
        · exact absurd hcase h2
      · exact ⟨p, hp2, hcase⟩
    by_cases h3 : cand.height ≤ item.height ∧ cand.width ≤ item.width
    · exfalso
      obtain ⟨p, hp, hcase⟩ := hrest
      have hpc : dominates p cand := by
        rcases hcase with hcase | hcase
        · exact sameWH_dominates hcase
        · exact hcase
      have hpi : dominates p item := dominates_trans hpc h3
      by_cases hsame : sameWH p item
      · exact h2 ⟨hsame.1 ▸ hpc.1, hsame.2 ▸ hpc.2⟩
      · exact hinv p (List.mem_cons_of_mem _ hp) item (List.mem_cons_self _ _)
          hsame hpi
    rw [if_neg h3]
    rw [ih cand (Invariant_of_cons hinv) hrest]

/-- When no existing point equals or weakly dominates the candidate, the scan
erases exactly the points the candidate weakly dominates, appends the
candidate and returns true (no invariant needed). -/
lemma addTo_accept : ∀ (curve : List Dimensions) (cand : Dimensions),
    (∀ p ∈ curve, ¬ sameWH p cand ∧ ¬ dominates p cand) →
    addToDimensions curve cand =
      (true, curve.filter (fun q => decide (¬ dominates cand q)) ++ [cand]) := by
  intro curve
  induction curve with
  | nil =>
    intro cand _
    rfl
  | cons item rest ih =>
    intro cand hall
    obtain ⟨hne, hnd⟩ := hall item (List.mem_cons_self _ _)
    have hrest : ∀ p ∈ rest, ¬ sameWH p cand ∧ ¬ dominates p cand :=
      fun p hp => hall p (List.mem_cons_of_mem _ hp)
    rw [addToDimensions_cons, if_neg (fun h => hne (sameWH_comm h)),
      if_neg (show ¬ (item.height ≤ cand.height ∧ item.width ≤ cand.width)
        from hnd)]
    by_cases h3 : cand.height ≤ item.height ∧ cand.width ≤ item.width
    · rw [if_pos h3, ih cand hrest]
      have hfalse : (fun q => decide (¬ dominates cand q)) item = false := by
        simp [dominates, h3]
      rw [@List.filter_cons_of_neg _ (fun q => decide (¬ dominates cand q))
        item rest (by simp [hfalse])]
    · rw [if_neg h3, ih cand hrest]
      have htrue : (fun q => decide (¬ dominates cand q)) item = true := by
        simp only [decide_eq_true_iff]
        exact h3
      rw [@List.filter_cons_of_pos _ (fun q => decide (¬ dominates cand q))
        item rest (by simp only [htrue])]
      rfl

/-- The result of any insertion into a curve satisfying the invariant again
satisfies the invariant. -/
lemma addTo_invariant (curve : List Dimensions) (cand : Dimensions)
    (hinv : Invariant curve) : Invariant (addToDimensions curve cand).2 := by
  by_cases hex : ∃ p ∈ curve, sameWH p cand ∨ dominates p cand
  · rw [addTo_reject curve cand hinv hex]
    exact hinv
  · push_neg at hex
    have hall : ∀ p ∈ curve, ¬ sameWH p cand ∧ ¬ dominates p cand := hex
    rw [addTo_accept curve cand hall]
    intro p hp q hq hne hdom
    rcases List.mem_append.mp hp with hp | hp <;>
      rcases List.mem_append.mp hq with hq | hq
    · exact hinv p (List.mem_of_mem_filter hp) q (List.mem_of_mem_filter hq)
        hne hdom
    · have hq2 : q = cand := by simpa using hq
      subst hq2
      exact (hall p (List.mem_of_mem_filter hp)).2 hdom
    · have hp2 : p = cand := by simpa using hp
      subst hp2
      have hh := List.of_mem_filter hq
      exact of_decide_eq_true hh hdom
    · have hp2 : p = cand := by simpa using hp
      have hq2 : q = cand := by simpa using hq
      subst hp2
      subst hq2
      exact hne (sameWH_refl _)

/-- C1: on a curve satisfying the no-domination invariant, `addToDimensions`
rejects the candidate and leaves the curve unchanged when an equal point
exists or an existing point weakly dominates the candidate; otherwise it
removes exactly the points the candidate weakly dominates, appends the
candidate, and returns true; in both cases the resulting curve again
satisfies the invariant. -/
theorem addToDimensions_insert_spec (curve : List Dimensions)
    (cand : Dimensions) (hinv : Invariant curve) :
    (((∃ p ∈ curve, sameWH p cand) ∨ ∃ p ∈ curve, dominates p cand) →
      addToDimensions curve cand = (false, curve)) ∧
    ((∀ p ∈ curve, ¬ sameWH p cand ∧ ¬ dominates p cand) →
      addToDimensions curve cand =
        (true, curve.filter (fun q => decide (¬ dominates cand q)) ++ [cand])) ∧
    Invariant (addToDimensions curve cand).2 := by
  refine ⟨?_, addTo_accept curve cand, addTo_invariant curve cand hinv⟩
  intro h
  apply addTo_reject curve cand hinv
  rcases h with ⟨p, hp, hc⟩ | ⟨p, hp, hc⟩
  · exact ⟨p, hp, Or.inl hc⟩
  · exact ⟨p, hp, Or.inr hc⟩

/-- Witness for C1: inserting the incomparable point (h 2, w 2) into the
invariant-satisfying curve [(h 1, w 3), (h 3, w 1)]. -/
theorem addToDimensions_insert_spec_witness :
    ((((∃ p ∈ [Dimensions.mk 1 3 none none, Dimensions.mk 3 1 none none],
        sameWH p (.mk 2 2 none none)) ∨
      ∃ p ∈ [Dimensions.mk 1 3 none none, Dimensions.mk 3 1 none none],
        dominates p (.mk 2 2 none none)) →
      addToDimensions [Dimensions.mk 1 3 none none, Dimensions.mk 3 1 none none]
        (.mk 2 2 none none) =
        (false, [Dimensions.mk 1 3 none none, Dimensions.mk 3 1 none none])) ∧
    ((∀ p ∈ [Dimensions.mk 1 3 none none, Dimensions.mk 3 1 none none],
        ¬ sameWH p (.mk 2 2 none none) ∧ ¬ dominates p (.mk 2 2 none none)) →
      addToDimensions [Dimensions.mk 1 3 none none, Dimensions.mk 3 1 none none]
        (.mk 2 2 none none) =
        (true, [Dimensions.mk 1 3 none none,
          Dimensions.mk 3 1 none none].filter
            (fun q => decide (¬ dominates (.mk 2 2 none none) q)) ++
          [.mk 2 2 none none])) ∧
    Invariant (addToDimensions
      [Dimensions.mk 1 3 none none, Dimensions.mk 3 1 none none]
      (.mk 2 2 none none)).2) :=
  addToDimensions_insert_spec _ _ (by decide)

/-! Section: The single-operand NPE bug (C6, C8) -/

/-- C6 (code bug evidence): for the fixed cell A with area 4 and aspect ratio
1 the derived leaf curve is exactly [(height 2, width 2)] (the parameter 2
being the exact square root of aspectRatio times area), and the validator
accepts the one-operand NPE "A"; but `generateTree` pushes the operand
character as an operator node (`SNode(char)` sets `isOperator`), so it
returns a childless operator node named A without ever looking the cell up,
and evaluating that node dereferences the NULL children
(`right->isOperator`), modelled as `none` — instead of yielding area 4. -/
theorem single_operand_npe_evaluation_bug :
    (2 : ℚ) * 2 = 1 * 4 ∧ (0 : ℚ) ≤ 2 ∧
    (mkCell 'A' 4 1 true 2).sizes = [.mk 2 2 none none] ∧
    isValidNPE "A" = true ∧
    generateTree "A" [mkCell 'A' 4 1 true 2] = .ok (.op 'A' none none) ∧
    calcTree (.op 'A' none none) = none ∧
    cost "A" [mkCell 'A' 4 1 true 2] = .ok none := by
  refine ⟨by norm_num, by norm_num, ?_, by decide, rfl, rfl, rfl⟩
  show calcWandH 4 2 true = [.mk 2 2 none none]
  norm_num [calcWandH]

/-- C8 (code bug evidence): the NPE "A" is accepted by the validator and its
only operand character A has no matching cell in the empty cell list, yet
`generateTree` raises no failure: the first character of the reversed NPE is
pushed as an operator node without any cell lookup, and a root node is
returned. -/
theorem generateTree_missing_cell_no_failure :
    isValidNPE "A" = true ∧
    lookupCell [] 'A' = none ∧
    generateTree "A" [] = .ok (.op 'A' none none) := by
  exact ⟨by decide, rfl, rfl⟩

/-! Section: The NPE validator (C4) -/



lemma operatorCount_cons_true {c : Char} (h : isOpChar c = true)
    (l : List Char) : operatorCount (c :: l) = operatorCount l + 1 := by
  simp [operatorCount, List.countP_cons, h]

lemma operandCount_cons_true {c : Char} (h : isOpChar c = true)
    (l : List Char) : operandCount (c :: l) = operandCount l := by
  simp [operandCount, List.countP_cons, h]

lemma operatorCount_cons_false {c : Char} (h : isOpChar c = false)
    (l : List Char) : operatorCount (c :: l) = operatorCount l := by
  simp [operatorCount, List.countP_cons, h]

lemma operandCount_cons_false {c : Char} (h : isOpChar c = false)
    (l : List Char) : operandCount (c :: l) = operandCount l + 1 := by
  simp [operandCount, List.countP_cons, h]

lemma isValidAux_nil (ops opr : ℤ) :
    isValidAux ops opr [] = decide (opr = ops - 1) := rfl

lemma isValidAux_cons (ops opr : ℤ) (c : Char) (rest : List Char) :
    isValidAux ops opr (c :: rest) =
      if isOpChar c then
        if adjSame c rest then false
        else if ops ≤ opr + 1 then false
        else isValidAux ops (opr + 1) rest
      else
        if rest.contains c then false
        else if ops + 1 ≤ opr then false
        else isValidAux (ops + 1) opr rest := rfl


/-- The scan of `isValidNPE`, started with counters `ops`/`opr`, succeeds iff
no two adjacent characters are the same operator, no operand character
reoccurs later, the balloting property (shifted by the starting counters)
holds at every non-empty prefix, and the final counts satisfy
operators = operands - 1. -/
lemma isValidAux_iff_conditions : ∀ (cs : List Char) (ops opr : ℤ),
    isValidAux ops opr cs = true ↔
      (List.Chain' (fun a b => ¬ (isOpChar a = true ∧ a = b)) cs ∧
       List.Pairwise (fun a b => isOpChar a = true ∨ a ≠ b) cs ∧
       (∀ n : ℕ, n < cs.length →
         opr + operatorCount (cs.take (n+1)) <
           ops + operandCount (cs.take (n+1))) ∧
       opr + operatorCount cs = ops + operandCount cs - 1) := by
  intro cs
  induction cs with
  | nil =>
    intro ops opr
    rw [isValidAux_nil, decide_eq_true_iff]
    simp only [List.chain'_nil, List.Pairwise.nil, List.length_nil,
      true_and]
    constructor
    · intro h
      refine ⟨by simp, ?_⟩
      simp only [operandCount, operatorCount, List.countP_nil]
      push_cast
      omega
    · intro ⟨_, h⟩
      simp only [operandCount, operatorCount, List.countP_nil] at h
      push_cast at h
      omega
  | cons c rest ih =>
    intro ops opr
    rw [isValidAux_cons]
    cases hc : isOpChar c with
    | true =>
      rw [if_pos rfl]
      by_cases hadj : adjSame c rest = true
      · -- adjacent identical operator: both sides fail
        rw [if_pos hadj]
        refine iff_of_false Bool.false_ne_true ?_
        intro ⟨h1, _, _, _⟩
        cases rest with
        | nil => simp [adjSame] at hadj
        | cons c2 rest2 =>
          simp only [adjSame, decide_eq_true_iff] at hadj
          exact (List.chain'_cons'.mp h1).1 c2 (by simp) ⟨hc, hadj⟩
      · -- no adjacent identical operator
        rw [if_neg hadj]
        have hhead : ∀ y ∈ rest.head?, ¬ (isOpChar c = true ∧ c = y) := by
          intro y hy
          cases rest with
          | nil => simp at hy
          | cons c2 rest2 =>
            simp only [List.head?_cons, Option.mem_some_iff] at hy
            subst hy
            intro hcontr
            simp only [adjSame, decide_eq_true_iff] at hadj
            exact hadj hcontr.2
        by_cases hb : ops ≤ opr + 1
        · rw [if_pos hb]
          refine iff_of_false Bool.false_ne_true ?_
          intro ⟨_, _, hball, _⟩
          have h0 := hball 0 (by simp)
          simp only [List.take_succ_cons, List.take_zero] at h0
          rw [operatorCount_cons_true hc, operandCount_cons_true hc] at h0
          simp only [operatorCount, operandCount, List.countP_nil] at h0
          push_cast at h0
          omega
        · rw [if_neg hb, ih ops (opr + 1)]
          constructor
          · intro ⟨h1, h2, h3, h4⟩
            refine ⟨List.chain'_cons'.mpr ⟨hhead, h1⟩,
              List.Pairwise.cons (fun b _ => Or.inl hc) h2, ?_, ?_⟩
            · intro n hn
              cases n with
              | zero =>
                simp only [List.take_succ_cons, List.take_zero]
                rw [operatorCount_cons_true hc, operandCount_cons_true hc]
                simp only [operatorCount, operandCount, List.countP_nil]
                push_cast
                omega
              | succ m =>
                have hm : m < rest.length := by
                  simpa using hn
                have := h3 m hm
                simp only [List.take_succ_cons]
                rw [operatorCount_cons_true hc, operandCount_cons_true hc]
                omega
            · rw [operatorCount_cons_true hc, operandCount_cons_true hc]
              omega
          · intro ⟨h1, h2, h3, h4⟩
            refine ⟨(List.chain'_cons'.mp h1).2, List.Pairwise.of_cons h2,
              ?_, ?_⟩
            · intro n hn
              have := h3 (n+1) (by simpa using Nat.succ_lt_succ hn)
              simp only [List.take_succ_cons] at this
              rw [operatorCount_cons_true hc, operandCount_cons_true hc]
                at this
              omega
            · rw [operatorCount_cons_true hc, operandCount_cons_true hc]
                at h4
              omega
    | false =>
      rw [if_neg Bool.false_ne_true]
      by_cases hmem : rest.contains c
      · rw [if_pos hmem]
        refine iff_of_false Bool.false_ne_true ?_
        intro ⟨_, h2, _, _⟩
        have hcin : c ∈ rest := by
          simpa [List.contains] using hmem
        have := (List.pairwise_cons.mp h2).1 c hcin
        rcases this with h | h
        · rw [hc] at h
          exact Bool.false_ne_true h
        · exact h rfl
      · rw [if_neg hmem]
        by_cases hb : ops + 1 ≤ opr
        · rw [if_pos hb]
          refine iff_of_false Bool.false_ne_true ?_
          intro ⟨_, _, hball, _⟩
          have h0 := hball 0 (by simp)
          simp only [List.take_succ_cons, List.take_zero] at h0
          rw [operatorCount_cons_false hc, operandCount_cons_false hc] at h0
          simp only [operatorCount, operandCount, List.countP_nil] at h0
          push_cast at h0
          omega
        · rw [if_neg hb, ih (ops + 1) opr]
          have hnotin : c ∉ rest := by
            intro hcin
            exact hmem (by simpa [List.contains] using hcin)
          constructor
          · intro ⟨h1, h2, h3, h4⟩
            refine ⟨List.chain'_cons'.mpr ⟨?_, h1⟩,
              List.Pairwise.cons ?_ h2, ?_, ?_⟩
            · intro y _ hcontr
              rw [hc] at hcontr
              exact Bool.false_ne_true hcontr.1
            · intro b hb2
              exact Or.inr (fun he => hnotin (he ▸ hb2))
            · intro n hn
              cases n with
              | zero =>
                simp only [List.take_succ_cons, List.take_zero]
                rw [operatorCount_cons_false hc, operandCount_cons_false hc]
                simp only [operatorCount, operandCount, List.countP_nil]
                push_cast
                omega
              | succ m =>
                have hm : m < rest.length := by
                  simpa using hn
                have := h3 m hm
                simp only [List.take_succ_cons]
                rw [operatorCount_cons_false hc, operandCount_cons_false hc]
                omega
            · rw [operatorCount_cons_false hc, operandCount_cons_false hc]
              omega
          · intro ⟨h1, h2, h3, h4⟩
            refine ⟨(List.chain'_cons'.mp h1).2, List.Pairwise.of_cons h2,
              ?_, ?_⟩
            · intro n hn
              have := h3 (n+1) (by simpa using Nat.succ_lt_succ hn)
              simp only [List.take_succ_cons] at this
              rw [operatorCount_cons_false hc, operandCount_cons_false hc]
                at this
              omega
            · rw [operatorCount_cons_false hc, operandCount_cons_false hc]
                at h4
              omega

/-- Forward-looking no-repeat of operands (what the scan checks) is the same
as every operand character occurring exactly once. -/
lemma pairwise_iff_operand_count : ∀ (cs : List Char),
    List.Pairwise (fun a b => isOpChar a = true ∨ a ≠ b) cs ↔
      ∀ c ∈ cs, isOpChar c = false → cs.count c = 1 := by
  intro cs
  induction cs with
  | nil => simp
  | cons a l ih =>
    constructor
    · intro pw c hcmem hc
      obtain ⟨hhead, htail⟩ := List.pairwise_cons.mp pw
      rcases List.mem_cons.mp hcmem with rfl | hcl
      · rw [List.count_cons_self]
        have hnot : c ∉ l := by
          intro hmem
          rcases hhead c hmem with h | h
          · rw [hc] at h
            exact Bool.false_ne_true h
          · exact h rfl
        rw [List.count_eq_zero.mpr hnot]
      · have hne : a ≠ c := by
          rcases hhead c hcl with h | h
          · intro he
            rw [he, hc] at h
            exact Bool.false_ne_true h
          · exact h
        rw [List.count_cons_of_ne (fun he => hne he.symm)]
        exact (ih.mp htail) c hcl hc
    · intro hcount
      rw [List.pairwise_cons]
      constructor
      · intro b hbl
        by_cases hop : isOpChar a = true
        · exact Or.inl hop
        · refine Or.inr ?_
          have h1 : (a :: l).count a = 1 :=
            hcount a (List.mem_cons_self _ _)
              (Bool.not_eq_true _ ▸ Bool.eq_false_iff.mpr hop)
          rw [List.count_cons_self] at h1
          have : a ∉ l := List.count_eq_zero.mp (by omega)
          exact fun he => this (he ▸ hbl)
      · refine ih.mpr ?_
        intro c hcl hc
        have h1 : (a :: l).count c = 1 :=
          hcount c (List.mem_cons_of_mem _ hcl) hc
        by_cases hac : c = a
        · subst hac
          rw [List.count_cons_self] at h1
          have : c ∉ l := List.count_eq_zero.mp (by omega)
          exact absurd hcl this
        · rw [List.count_cons_of_ne hac] at h1
          exact h1



/-- C4: `isValidNPE` returns true exactly when the four structural conditions
hold, and in particular accepts "12V3V" and rejects "1V2V". -/
theorem isValidNPE_iff_spec :
    (∀ npe : String, isValidNPE npe = true ↔ specValidNPE npe.data) ∧
    isValidNPE "12V3V" = true ∧ isValidNPE "1V2V" = false := by
  refine ⟨?_, by decide, by decide⟩
  intro npe
  rw [isValidNPE, isValidAux_iff_conditions]
  unfold specValidNPE
  constructor
  · intro ⟨h1, h2, h3, h4⟩
    refine ⟨(pairwise_iff_operand_count _).mp h2, h1, ?_, ?_⟩
    · intro n hn
      have := h3 n hn
      omega
    · omega
  · intro ⟨h1, h2, h3, h4⟩
    refine ⟨h2, (pairwise_iff_operand_count _).mpr h1, ?_, ?_⟩
    · intro n hn
      have := h3 n hn
      omega
    · omega

/-! Section: Order independence of the merged curve as a set of points (C9) -/



lemma domP_refl (a : ℚ × ℚ) : domP a a := ⟨le_refl _, le_refl _⟩

lemma domP_trans {a b c : ℚ × ℚ} (h1 : domP a b) (h2 : domP b c) :
    domP a c := ⟨le_trans h1.1 h2.1, le_trans h1.2 h2.2⟩

lemma domP_antisymm {a b : ℚ × ℚ} (h1 : domP a b) (h2 : domP b a) :
    a = b :=
  Prod.ext (le_antisymm h1.1 h2.1) (le_antisymm h1.2 h2.2)

lemma sdomP_irrefl (a : ℚ × ℚ) : ¬ sdomP a a := fun h => h.2 rfl

lemma sdomP_trans {a b c : ℚ × ℚ} (h1 : sdomP a b) (h2 : sdomP b c) :
    sdomP a c := by
  refine ⟨domP_trans h1.1 h2.1, ?_⟩
  intro he
  subst he
  exact h1.2 (domP_antisymm h1.1 h2.1)

lemma sameWH_iff_wh_eq {p q : Dimensions} : sameWH p q ↔ wh p = wh q := by
  unfold sameWH wh
  rw [Prod.ext_iff]
  exact ⟨fun h => ⟨h.2, h.1⟩, fun h => ⟨h.2, h.1⟩⟩

lemma dominates_iff_domP {p q : Dimensions} :
    dominates p q ↔ domP (wh p) (wh q) := by
  unfold dominates domP wh
  exact ⟨fun h => ⟨h.2, h.1⟩, fun h => ⟨h.2, h.1⟩⟩



lemma mem_whFinset {l : List Dimensions} {z : ℚ × ℚ} :
    z ∈ whFinset l ↔ ∃ p ∈ l, wh p = z := by
  simp [whFinset, whList]

lemma Invariant.pairAntichain {l : List Dimensions} (h : Invariant l) :
    PairAntichain (whFinset l) := by
  intro a ha b hb hsd
  obtain ⟨p, hp, rfl⟩ := mem_whFinset.mp ha
  obtain ⟨q, hq, rfl⟩ := mem_whFinset.mp hb
  have hne : ¬ sameWH p q := fun hs => hsd.2 (sameWH_iff_wh_eq.mp hs)
  exact h p hp q hq hne (dominates_iff_domP.mpr hsd.1)

lemma minOf_antichain {S : Finset (ℚ × ℚ)} (h : PairAntichain S) :
    minOf S = S :=
  Finset.filter_true_of_mem (fun x hx y hy hsd => h y hy x hx hsd)

/-- Every element of a finite set of pairs has a Pareto-minimal element of the
set weakly below it. -/
lemma exists_min_below : ∀ (n : ℕ) (S : Finset (ℚ × ℚ)) (x : ℚ × ℚ),
    (S.filter (fun y => sdomP y x)).card ≤ n → x ∈ S →
    ∃ m ∈ S, domP m x ∧ ∀ y ∈ S, ¬ sdomP y m := by
  intro n
  induction n with
  | zero =>
    intro S x hcard hx
    refine ⟨x, hx, domP_refl x, ?_⟩
    intro y hy hsd
    have hmem : y ∈ S.filter (fun y => sdomP y x) :=
      Finset.mem_filter.mpr ⟨hy, hsd⟩
    rw [Finset.card_eq_zero.mp (Nat.le_zero.mp hcard)] at hmem
    exact absurd hmem (Finset.not_mem_empty y)
  | succ k ih =>
    intro S x hcard hx
    by_cases hmin : ∀ y ∈ S, ¬ sdomP y x
    · exact ⟨x, hx, domP_refl x, hmin⟩
    · push_neg at hmin
      obtain ⟨y, hy, hsd⟩ := hmin
      have hsub : S.filter (fun z => sdomP z y) ⊂
          S.filter (fun z => sdomP z x) := by
        constructor
        · intro z hz
          rw [Finset.mem_filter] at hz ⊢
          exact ⟨hz.1, sdomP_trans hz.2 hsd⟩
        · intro hsupset
          have hyx : y ∈ S.filter (fun z => sdomP z x) :=
            Finset.mem_filter.mpr ⟨hy, hsd⟩
          have hyy := hsupset hyx
          rw [Finset.mem_filter] at hyy
          exact sdomP_irrefl y hyy.2
      have hcard2 : (S.filter (fun z => sdomP z y)).card ≤ k := by
        have := Finset.card_lt_card hsub
        omega
      obtain ⟨m, hm, hmd, hmmin⟩ := ih S y hcard2 hy
      exact ⟨m, hm, domP_trans hmd hsd.1, hmmin⟩

/-- Compressing a union through `minOf`: pruning dominated elements of `S`
before adding `T` does not change the minimal elements of the union. -/
lemma minOf_minOf_union (S T : Finset (ℚ × ℚ)) :
    minOf (minOf S ∪ T) = minOf (S ∪ T) := by
  ext z
  simp only [minOf, Finset.mem_filter, Finset.mem_union] at *
  constructor
  · intro ⟨hz, hmin⟩
    refine ⟨?_, ?_⟩
    · rcases hz with ⟨hzS, _⟩ | hzT
      · exact Or.inl hzS
      · exact Or.inr hzT
    · intro y hy hsd
      rcases hy with hyS | hyT
      · obtain ⟨m, hm, hmd, hmmin⟩ :=
          exists_min_below (S.filter (fun w => sdomP w y)).card S y
            (le_refl _) hyS
        have hmz : sdomP m z := by
          refine ⟨domP_trans hmd hsd.1, ?_⟩
          intro he
          rw [he] at hmd
          exact hsd.2 (domP_antisymm hsd.1 hmd)
        exact hmin m (Or.inl ⟨hm, hmmin⟩) hmz
      · exact hmin y (Or.inr hyT) hsd
  · intro ⟨hz, hmin⟩
    refine ⟨?_, ?_⟩
    · rcases hz with hzS | hzT
      · refine Or.inl ⟨hzS, ?_⟩
        intro y hyS hsd
        exact hmin y (Or.inl hyS) hsd
      · exact Or.inr hzT
    · intro y hy hsd
      rcases hy with ⟨hyS, _⟩ | hyT
      · exact hmin y (Or.inl hyS) hsd
      · exact hmin y (Or.inr hyT) hsd

lemma minOf_union_singleton_of_mem {A : Finset (ℚ × ℚ)} {x : ℚ × ℚ}
    (hA : PairAntichain A) (hxA : x ∈ A) : minOf (A ∪ {x}) = A := by
  rw [Finset.union_eq_left.mpr (Finset.singleton_subset_iff.mpr hxA)]
  exact minOf_antichain hA

lemma minOf_union_singleton_of_below {A : Finset (ℚ × ℚ)} {x a : ℚ × ℚ}
    (hA : PairAntichain A) (haA : a ∈ A) (had : domP a x) (hxA : x ∉ A) :
    minOf (A ∪ {x}) = A := by
  have hax : a ≠ x := fun he => hxA (he ▸ haA)
  ext z
  simp only [minOf, Finset.mem_filter, Finset.mem_union, Finset.mem_singleton]
  constructor
  · intro ⟨hz, hmin⟩
    rcases hz with hzA | rfl
    · exact hzA
    · exact absurd ⟨had, hax⟩ (hmin a (Or.inl haA))
  · intro hzA
    refine ⟨Or.inl hzA, ?_⟩
    intro y hy hsd
    rcases hy with hyA | rfl
    · exact hA y hyA z hzA hsd
    · by_cases haz : a = z
      · subst haz
        exact hsd.2 (domP_antisymm hsd.1 had)
      · exact hA a haA z hzA ⟨domP_trans had hsd.1, haz⟩

lemma minOf_union_singleton_of_incomp {A : Finset (ℚ × ℚ)} {x : ℚ × ℚ}
    (hA : PairAntichain A) (hnb : ∀ a ∈ A, ¬ domP a x) (hxA : x ∉ A) :
    minOf (A ∪ {x}) = A.filter (fun u => ¬ domP x u) ∪ {x} := by
  ext z
  simp only [minOf, Finset.mem_filter, Finset.mem_union, Finset.mem_singleton]
  constructor
  · intro ⟨hz, hmin⟩
    rcases hz with hzA | rfl
    · refine Or.inl ⟨hzA, ?_⟩
      intro hdom
      exact hmin x (Or.inr rfl) ⟨hdom, fun he => hxA (he ▸ hzA)⟩
    · exact Or.inr rfl
  · intro hz
    rcases hz with ⟨hzA, hkeep⟩ | rfl
    · refine ⟨Or.inl hzA, ?_⟩
      intro y hy hsd
      rcases hy with hyA | rfl
      · exact hA y hyA z hzA hsd
      · exact hkeep hsd.1
    · refine ⟨Or.inr rfl, ?_⟩
      intro y hy hsd
      rcases hy with hyA | rfl
      · exact hnb y hyA hsd.1
      · exact sdomP_irrefl _ hsd

lemma whList_filter (c : Dimensions) (l : List Dimensions) :
    whList (l.filter (fun q => decide (¬ dominates c q))) =
      (whList l).filter (fun u => decide (¬ domP (wh c) u)) := by
  unfold whList
  rw [List.filter_map]
  congr 1
  apply List.filter_congr
  intro a _
  simp only [Function.comp]
  exact decide_eq_decide.mpr (not_congr dominates_iff_domP)

/-- One insertion step, at the level of (width, height) sets: the result is
exactly the set of Pareto-minimal elements of the old set plus the candidate,
and the list invariants are preserved. -/
lemma insStep_spec (acc : List Dimensions) (c : Dimensions)
    (hinv : Invariant acc) (hnd : (whList acc).Nodup) :
    whFinset (insStep acc c) = minOf (whFinset acc ∪ {wh c}) ∧
    Invariant (insStep acc c) ∧ (whList (insStep acc c)).Nodup := by
  by_cases hex : ∃ p ∈ acc, sameWH p c ∨ dominates p c
  · have heq : insStep acc c = acc := by
      unfold insStep
      rw [addTo_reject acc c hinv hex]
    rw [heq]
    refine ⟨?_, hinv, hnd⟩
    obtain ⟨p, hp, hcase⟩ := hex
    by_cases hxA : wh c ∈ whFinset acc
    · exact (minOf_union_singleton_of_mem hinv.pairAntichain hxA).symm
    · have had : domP (wh p) (wh c) := by
        rcases hcase with hs | hd
        · rw [sameWH_iff_wh_eq.mp hs]
          exact domP_refl _
        · exact dominates_iff_domP.mp hd
      exact (minOf_union_singleton_of_below hinv.pairAntichain
        (mem_whFinset.mpr ⟨p, hp, rfl⟩) had hxA).symm
  · push_neg at hex
    have heq : insStep acc c =
        acc.filter (fun q => decide (¬ dominates c q)) ++ [c] := by
      unfold insStep
      rw [addTo_accept acc c hex]
    have hxA : wh c ∉ whFinset acc := by
      intro hmem
      obtain ⟨p, hp, hwhp⟩ := mem_whFinset.mp hmem
      exact (hex p hp).1 (sameWH_iff_wh_eq.mpr hwhp)
    have hnb : ∀ a ∈ whFinset acc, ¬ domP a (wh c) := by
      intro a ha hdom
      obtain ⟨p, hp, rfl⟩ := mem_whFinset.mp ha
      exact (hex p hp).2 (dominates_iff_domP.mpr hdom)
    have hwl : whList (insStep acc c) =
        (whList acc).filter (fun u => decide (¬ domP (wh c) u)) ++ [wh c] := by
      rw [heq]
      show whList _ = _
      unfold whList
      rw [List.map_append]
      show whList _ ++ _ = _
      rw [whList_filter]
      rfl
    refine ⟨?_, addTo_invariant acc c hinv, ?_⟩
    · rw [minOf_union_singleton_of_incomp hinv.pairAntichain hnb hxA]
      unfold whFinset
      rw [hwl, List.toFinset_append]
      ext z
      simp only [Finset.mem_union, List.mem_toFinset, List.mem_filter,
        Finset.mem_filter, decide_eq_true_iff, List.toFinset_cons,
        List.toFinset_nil, Finset.mem_insert, Finset.not_mem_empty,
        or_false, Finset.mem_singleton]
    · rw [hwl]
      rw [List.nodup_append]
      refine ⟨hnd.filter _, List.nodup_singleton _, ?_⟩
      intro z hz hz2
      have hz3 : z = wh c := by simpa using hz2
      subst hz3
      have := List.of_mem_filter hz
      rw [decide_eq_true_iff] at this
      exact this (domP_refl _)

/-- Folding any candidate list through `addToDimensions` produces, as a set
of (width, height) pairs, exactly the Pareto-minimal elements of the
accumulated set union the candidates' set. -/
lemma foldl_insStep_minOf : ∀ (cs acc : List Dimensions),
    Invariant acc → (whList acc).Nodup →
    whFinset (cs.foldl insStep acc) =
      minOf (whFinset acc ∪ (whList cs).toFinset) := by
  intro cs
  induction cs with
  | nil =>
    intro acc hinv hnd
    simp only [List.foldl_nil, whList, List.map_nil, List.toFinset_nil,
      Finset.union_empty]
    exact (minOf_antichain hinv.pairAntichain).symm
  | cons c cs ih =>
    intro acc hinv hnd
    obtain ⟨h1, h2, h3⟩ := insStep_spec acc c hinv hnd
    rw [List.foldl_cons, ih (insStep acc c) h2 h3, h1, minOf_minOf_union]
    congr 1
    rw [Finset.union_assoc]
    congr 1
    show {wh c} ∪ (whList cs).toFinset = (whList (c :: cs)).toFinset
    rw [show whList (c :: cs) = wh c :: whList cs from rfl,
      List.toFinset_cons]
    ext z
    simp

/-- C9: for child curves satisfying the no-domination invariant, the merged
curve viewed as a set of (width, height) pairs does not depend on the order
in which the cross-product candidates are offered to `addToDimensions`: any
permutation of the candidate list folds to the same set, namely the
Pareto-minimal pairs of the candidate set. -/
theorem merged_curve_order_independent (name : Char)
    (R L : List Dimensions) (hR : Invariant R) (hL : Invariant L)
    (cs : List Dimensions) (hperm : cs.Perm (candList name R L)) :
    whFinset (cs.foldl insStep []) = whFinset (mergeCurves name R L) := by
  rw [mergeCurves_eq_foldl_candList]
  rw [foldl_insStep_minOf cs [] (by intro p hp; simp at hp) (by simp [whList]),
    foldl_insStep_minOf (candList name R L) []
      (by intro p hp; simp at hp) (by simp [whList])]
  congr 2
  ext z
  simp only [List.mem_toFinset, whList]
  constructor
  · intro hz
    obtain ⟨p, hp, rfl⟩ := List.mem_map.mp hz
    exact List.mem_map.mpr ⟨p, hperm.mem_iff.mp hp, rfl⟩
  · intro hz
    obtain ⟨p, hp, rfl⟩ := List.mem_map.mp hz
    exact List.mem_map.mpr ⟨p, hperm.mem_iff.mpr hp, rfl⟩

/-- Witness for C9: offering the two cross-product candidates of a vertical
merge in reversed order yields the same set of (width, height) pairs. -/
theorem merged_curve_order_independent_witness :
    whFinset (((candList 'V' [.mk 2 2 none none]
        [.mk 4 1 none none, .mk 1 4 none none]).reverse).foldl insStep []) =
      whFinset (mergeCurves 'V' [.mk 2 2 none none]
        [.mk 4 1 none none, .mk 1 4 none none]) :=
  merged_curve_order_independent 'V' _ _ (by decide) (by decide) _
    (List.reverse_perm _)

/-! Section: Valid NPEs parse as postfix expressions (towards C3) -/

lemma stackParse_cons (c : Char) (cs : List Char) (st : List Expr) :
    stackParse (c :: cs) st =
      if isOpChar c then
        match st with
        | b :: a :: st2 => stackParse cs (.oper c b a :: st2)
        | _ => none
      else stackParse cs (.operand c :: st) := rfl



/-- Parsing consumes characters into the stack's segments. -/
lemma stackParse_segs : ∀ (cs : List Char) (st st2 : List Expr),
    stackParse cs st = some st2 → segs st2 = segs st ++ cs := by
  intro cs
  induction cs with
  | nil =>
    intro st st2 h
    simp only [stackParse, Option.some.injEq] at h
    subst h
    simp
  | cons c cs ih =>
    intro st st2 h
    rw [stackParse_cons] at h
    by_cases hc : isOpChar c
    · rw [if_pos hc] at h
      match st with
      | [] => exact absurd h (by simp)
      | [b] => exact absurd h (by simp)
      | b :: a :: st3 =>
        have := ih (.oper c b a :: st3) st2 h
        rw [this]
        simp only [segs, List.reverse_cons, List.map_append,
          List.join_append]
        simp [psE, List.append_assoc]
    · rw [if_neg hc] at h
      have := ih (.operand c :: st) st2 h
      rw [this]
      simp only [segs, List.reverse_cons, List.map_append,
        List.join_append]
      simp [psE, List.append_assoc]

/-- A string accepted by the validator's scan (with matching stack size)
parses to a single well-formed expression. -/
lemma stackParse_of_counts : ∀ (cs : List Char) (ops opr : ℤ)
    (st : List Expr),
    isValidAux ops opr cs = true → (st.length : ℤ) = ops - opr →
    (∀ e ∈ st, wfExpr e) →
    ∃ e, stackParse cs st = some [e] ∧ wfExpr e := by
  intro cs
  induction cs with
  | nil =>
    intro ops opr st hv hlen hwf
    rw [isValidAux_nil, decide_eq_true_iff] at hv
    have h1 : st.length = 1 := by omega
    match st, h1 with
    | [e], _ =>
      exact ⟨e, rfl, hwf e (List.mem_singleton.mpr rfl)⟩
  | cons c rest ih =>
    intro ops opr st hv hlen hwf
    rw [isValidAux_cons] at hv
    by_cases hc : isOpChar c = true
    · rw [if_pos hc] at hv
      by_cases hadj : adjSame c rest = true
      · rw [if_pos hadj] at hv
        exact absurd hv Bool.false_ne_true
      · rw [if_neg hadj] at hv
        by_cases hb : ops ≤ opr + 1
        · rw [if_pos hb] at hv
          exact absurd hv Bool.false_ne_true
        · rw [if_neg hb] at hv
          have hlen2 : 2 ≤ st.length := by omega
          match st, hlen2 with
          | b :: a :: st3, _ =>
            have hstep : stackParse (c :: rest) (b :: a :: st3) =
                stackParse rest (.oper c b a :: st3) := by
              rw [stackParse_cons, if_pos hc]
            have hwf2 : ∀ e ∈ (Expr.oper c b a :: st3), wfExpr e := by
              intro e he
              rcases List.mem_cons.mp he with rfl | he2
              · exact ⟨hc, hwf b (by simp), hwf a (by simp)⟩
              · exact hwf e (by simp [he2])
            have hlen3 : ((Expr.oper c b a :: st3).length : ℤ) =
                ops - (opr + 1) := by
              simp only [List.length_cons] at hlen ⊢
              push_cast at hlen ⊢
              omega
            obtain ⟨e, hp, hwfe⟩ := ih ops (opr + 1) _ hv hlen3 hwf2
            exact ⟨e, by rw [hstep]; exact hp, hwfe⟩
    · rw [if_neg hc] at hv
      by_cases hmem : rest.contains c
      · rw [if_pos hmem] at hv
        exact absurd hv Bool.false_ne_true
      · rw [if_neg hmem] at hv
        by_cases hb : ops + 1 ≤ opr
        · rw [if_pos hb] at hv
          exact absurd hv Bool.false_ne_true
        · rw [if_neg hb] at hv
          have hstep : stackParse (c :: rest) st =
              stackParse rest (.operand c :: st) := by
            rw [stackParse_cons, if_neg hc]
          have hwf2 : ∀ e ∈ (Expr.operand c :: st), wfExpr e := by
            intro e he
            rcases List.mem_cons.mp he with rfl | he2
            · exact Bool.eq_false_iff.mpr hc
            · exact hwf e he2
          have hlen3 : ((Expr.operand c :: st).length : ℤ) =
              (ops + 1) - opr := by
            simp only [List.length_cons]
            push_cast
            omega
          obtain ⟨e, hp, hwfe⟩ := ih (ops + 1) opr _ hv hlen3 hwf2
          exact ⟨e, by rw [hstep]; exact hp, hwfe⟩

/-! Section: The pointer-walk construction of generateTree (C3) -/

lemma runChars_cons (cells : List Cell) (fs : List Frame) (c : Char)
    (cs : List Char) :
    runChars cells fs (c :: cs) =
      if isOpChar c then runChars cells (⟨c, none⟩ :: fs) cs
      else
        match lookupCell cells c with
        | none => .error "Cell data not valid!"
        | some cell =>
          match completeUp (.leaf cell) fs with
          | .inl fs2 => runChars cells fs2 cs
          | .inr t => if cs.isEmpty then .ok (.inr t)
            else .error "root completed early" := rfl

lemma lookupCell_name : ∀ (cells : List Cell) (c : Char) (cell : Cell),
    lookupCell cells c = some cell → cell.name = c := by
  have haux : ∀ (cells : List Cell) (acc : Option Cell) (c : Char)
      (cell : Cell),
      (∀ x, acc = some x → x.name = c) →
      cells.foldl (fun acc cell => if cell.name = c then some cell else acc)
        acc = some cell → cell.name = c := by
    intro cells
    induction cells with
    | nil =>
      intro acc c cell hacc h
      exact hacc cell h
    | cons x cells ih =>
      intro acc c cell hacc h
      rw [List.foldl_cons] at h
      by_cases hx : x.name = c
      · refine ih _ c cell ?_ h
        intro y hy
        rw [if_pos hx] at hy
        cases hy
        exact hx
      · refine ih _ c cell ?_ h
        intro y hy
        rw [if_neg hx] at hy
        exact hacc y hy
  intro cells c cell h
  exact haux cells none c cell (by intro x hx; cases hx) h

/-- Operand characters of an expression all have cells: the C++ tree of the
expression exists. -/
lemma toTreeC_isSome : ∀ (e : Expr) (cells : List Cell),
    wfExpr e →
    (∀ ch ∈ psE e, isOpChar ch = false →
      (lookupCell cells ch).isSome = true) →
    ∃ t, toTreeC cells e = some t := by
  intro e
  induction e with
  | operand c =>
    intro cells hwf hcells
    have := hcells c (by simp [psE]) hwf
    obtain ⟨cell, hcell⟩ := Option.isSome_iff_exists.mp this
    exact ⟨.leaf cell, by rw [toTreeC, hcell]; rfl⟩
  | oper c later earlier ihl ihe =>
    intro cells hwf hcells
    obtain ⟨hc, hwfl, hwfe⟩ := hwf
    obtain ⟨tl, htl⟩ := ihl cells hwfl (by
      intro ch hch hop
      exact hcells ch (by simp [psE, hch]) hop)
    obtain ⟨te, hte⟩ := ihe cells hwfe (by
      intro ch hch hop
      exact hcells ch (by simp [psE, hch]) hop)
    exact ⟨.op c (some tl) (some te), by rw [toTreeC, htl, hte]⟩

/-- The spec's stack tree of the expression exists under the same
conditions. -/
lemma toTreeS_isSome : ∀ (e : Expr) (cells : List Cell),
    wfExpr e →
    (∀ ch ∈ psE e, isOpChar ch = false →
      (lookupCell cells ch).isSome = true) →
    ∃ t, toTreeS cells e = some t := by
  intro e
  induction e with
  | operand c =>
    intro cells hwf hcells
    have := hcells c (by simp [psE]) hwf
    obtain ⟨cell, hcell⟩ := Option.isSome_iff_exists.mp this
    exact ⟨.leaf cell, by rw [toTreeS, hcell]; rfl⟩
  | oper c later earlier ihl ihe =>
    intro cells hwf hcells
    obtain ⟨hc, hwfl, hwfe⟩ := hwf
    obtain ⟨tl, htl⟩ := ihl cells hwfl (by
      intro ch hch hop
      exact hcells ch (by simp [psE, hch]) hop)
    obtain ⟨te, hte⟩ := ihe cells hwfe (by
      intro ch hch hop
      exact hcells ch (by simp [psE, hch]) hop)
    exact ⟨.op c (some te) (some tl), by rw [toTreeS, htl, hte]⟩

/-- The C++ pointer-walk tree is the left-right mirror image of the spec's
stack tree. -/
lemma toTreeC_eq_mirror_toTreeS : ∀ (e : Expr) (cells : List Cell)
    (tc ts : STree),
    toTreeC cells e = some tc → toTreeS cells e = some ts →
    tc = mirror ts := by
  intro e
  induction e with
  | operand c =>
    intro cells tc ts hc hs
    rw [toTreeC] at hc
    rw [toTreeS] at hs
    cases hlk : lookupCell cells c with
    | none =>
      rw [hlk] at hc
      exact absurd hc (by simp)
    | some cell =>
      rw [hlk] at hc hs
      simp only [Option.map_some'] at hc hs
      cases hc
      cases hs
      rfl
  | oper c later earlier ihl ihe =>
    intro cells tc ts hc hs
    rw [toTreeC] at hc
    rw [toTreeS] at hs
    cases hcl : toTreeC cells later with
    | none => rw [hcl] at hc; exact absurd hc (by simp)
    | some tcl =>
      cases hce : toTreeC cells earlier with
      | none => rw [hcl, hce] at hc; exact absurd hc (by simp)
      | some tce =>
        cases hsl : toTreeS cells later with
        | none => rw [hsl] at hs; exact absurd hs (by simp)
        | some tsl =>
          cases hse : toTreeS cells earlier with
          | none => rw [hsl, hse] at hs; exact absurd hs (by simp)
          | some tse =>
            rw [hcl, hce] at hc
            rw [hsl, hse] at hs
            simp only [Option.some.injEq] at hc hs
            subst hc
            subst hs
            rw [ihl cells tcl tsl hcl hsl, ihe cells tce tse hce hse]
            rfl

/-- Printing the C++ tree with `operator<<` reproduces the expression's
postfix string. -/
lemma printTree_toTreeC : ∀ (e : Expr) (cells : List Cell) (t : STree),
    wfExpr e → toTreeC cells e = some t →
    printTree t = some (psE e) := by
  intro e
  induction e with
  | operand c =>
    intro cells t hwf ht
    rw [toTreeC] at ht
    cases hlk : lookupCell cells c with
    | none => rw [hlk] at ht; exact absurd ht (by simp)
    | some cell =>
      rw [hlk] at ht
      simp only [Option.map_some', Option.some.injEq] at ht
      subst ht
      rw [printTree, psE, lookupCell_name cells c cell hlk]
  | oper c later earlier ihl ihe =>
    intro cells t hwf ht
    obtain ⟨hc, hwfl, hwfe⟩ := hwf
    rw [toTreeC] at ht
    cases hcl : toTreeC cells later with
    | none => rw [hcl] at ht; exact absurd ht (by simp)
    | some tl =>
      cases hce : toTreeC cells earlier with
      | none => rw [hcl, hce] at ht; exact absurd ht (by simp)
      | some te =>
        rw [hcl, hce] at ht
        simp only [Option.some.injEq] at ht
        subst ht
        rw [printTree, ihe cells te hwfe hce, ihl cells tl hwfl hcl]
        rw [psE]

/-- The construction loop of `generateTree`, run on the reversed characters of
one complete postfix subexpression: it builds exactly the C++ tree of that
subexpression and attaches it to the current frame stack via `completeUp`,
then continues with the remaining characters. -/
lemma runChars_expr : ∀ (e : Expr) (cells : List Cell) (t : STree),
    wfExpr e → toTreeC cells e = some t →
    ∀ (fs : List Frame) (rest : List Char),
      runChars cells fs ((psE e).reverse ++ rest) =
        match completeUp t fs with
        | .inl fs2 => runChars cells fs2 rest
        | .inr tr => if rest.isEmpty then .ok (.inr tr)
          else .error "root completed early" := by
  intro e
  induction e with
  | operand c =>
    intro cells t hwf ht fs rest
    rw [toTreeC] at ht
    cases hlk : lookupCell cells c with
    | none => rw [hlk] at ht; exact absurd ht (by simp)
    | some cell =>
      rw [hlk] at ht
      simp only [Option.map_some', Option.some.injEq] at ht
      subst ht
      show runChars cells fs (c :: rest) = _
      rw [runChars_cons, if_neg (by rw [hwf]; exact Bool.false_ne_true), hlk]
  | oper c later earlier ihl ihe =>
    intro cells t hwf ht fs rest
    obtain ⟨hc, hwfl, hwfe⟩ := hwf
    rw [toTreeC] at ht
    cases hcl : toTreeC cells later with
    | none => rw [hcl] at ht; exact absurd ht (by simp)
    | some tl =>
      cases hce : toTreeC cells earlier with
      | none => rw [hcl, hce] at ht; exact absurd ht (by simp)
      | some te =>
        rw [hcl, hce] at ht
        simp only [Option.some.injEq] at ht
        subst ht
        have hchars : (psE (Expr.oper c later earlier)).reverse ++ rest =
            c :: ((psE later).reverse ++ ((psE earlier).reverse ++ rest)) := by
          rw [psE]
          simp [List.reverse_append, List.append_assoc]
        rw [hchars, runChars_cons, if_pos hc]
        rw [ihl cells tl hwfl hcl (⟨c, none⟩ :: fs)
          ((psE earlier).reverse ++ rest)]
        show runChars cells (⟨c, some tl⟩ :: fs)
          ((psE earlier).reverse ++ rest) = _
        rw [ihe cells te hwfe hce (⟨c, some tl⟩ :: fs) rest]
        rfl

lemma stackBuildAux_cons (cells : List Cell) (c : Char) (cs : List Char)
    (st : List STree) :
    stackBuildAux cells (c :: cs) st =
      if isOpChar c then
        match st with
        | b :: a :: st2 =>
          stackBuildAux cells cs (.op c (some a) (some b) :: st2)
        | _ => .error "MalformedTree"
      else
        match lookupCell cells c with
        | none => .error "UnknownCell"
        | some cell => stackBuildAux cells cs (.leaf cell :: st) := rfl

/-- The spec's stack builder follows `stackParse`: with stacks related by
`toTreeS`, it ends with the trees of the final parse stack. -/
lemma stackBuildAux_of_parse : ∀ (cs : List Char) (cells : List Cell)
    (pst pst2 : List Expr) (tst : List STree),
    stackParse cs pst = some pst2 →
    List.Forall₂ (fun e t => toTreeS cells e = some t) pst tst →
    (∀ ch ∈ cs, isOpChar ch = false →
      (lookupCell cells ch).isSome = true) →
    ∃ tst2, List.Forall₂ (fun e t => toTreeS cells e = some t) pst2 tst2 ∧
      stackBuildAux cells cs tst = stackBuildAux cells [] tst2 := by
  intro cs
  induction cs with
  | nil =>
    intro cells pst pst2 tst hp hf _
    simp only [stackParse, Option.some.injEq] at hp
    subst hp
    exact ⟨tst, hf, rfl⟩
  | cons c cs ih =>
    intro cells pst pst2 tst hp hf hcells
    rw [stackParse_cons] at hp
    rw [stackBuildAux_cons]
    have hcells2 : ∀ ch ∈ cs, isOpChar ch = false →
        (lookupCell cells ch).isSome = true :=
      fun ch hch => hcells ch (List.mem_cons_of_mem _ hch)
    by_cases hc : isOpChar c
    · rw [if_pos hc] at hp ⊢
      match pst, hp, hf with
      | b :: a :: pst3, hp, hf =>
        obtain ⟨tb, tst1, htb, hf2, rfl⟩ := List.forall₂_cons_left_iff.mp hf
        obtain ⟨ta, tst3, hta, hf3, rfl⟩ := List.forall₂_cons_left_iff.mp hf2
        have hnew : toTreeS cells (.oper c b a) =
            some (.op c (some ta) (some tb)) := by
          rw [toTreeS, htb, hta]
        exact ih cells _ pst2 _ hp (List.Forall₂.cons hnew hf3) hcells2
    · rw [if_neg hc] at hp ⊢
      have hlk := hcells c (List.mem_cons_self _ _)
        (Bool.eq_false_iff.mpr hc)
      obtain ⟨cell, hcell⟩ := Option.isSome_iff_exists.mp hlk
      rw [hcell]
      have hnew : toTreeS cells (.operand c) = some (.leaf cell) := by
        rw [toTreeS, hcell]
        rfl
      exact ih cells _ pst2 _ hp (List.Forall₂.cons hnew hf) hcells2

lemma generateTree_eq (npe : String) (cells : List Cell) :
    generateTree npe cells =
      if isValidNPE npe = false then .error "Invalid NPE!"
      else
        match npe.data.reverse with
        | [] => .error "Invalid NPE!"
        | c0 :: rest =>
          match runChars cells [⟨c0, none⟩] rest with
          | .error e => .error e
          | .ok (.inr t) => .ok t
          | .ok (.inl fs) =>
            match readout fs with
            | some t => .ok t
            | none => .error "empty operator list" := rfl

/-- C3 counterexample: on the validator-accepted NPE "12V" with both cells
present, `generateTree` and the stack-based builder of spec section 4.4
return different trees (`generateTree` puts cell 1 in the left child, the
stack semantics puts cell 2 there). -/
theorem generateTree_differs_from_stack_build :
    generateTree "12V" [mkCell '1' 1 1 true 1, mkCell '2' 1 1 true 1] =
      .ok (.op 'V' (some (.leaf (mkCell '2' 1 1 true 1)))
        (some (.leaf (mkCell '1' 1 1 true 1)))) ∧
    stackBuild "12V" [mkCell '1' 1 1 true 1, mkCell '2' 1 1 true 1] =
      .ok (.op 'V' (some (.leaf (mkCell '1' 1 1 true 1)))
        (some (.leaf (mkCell '2' 1 1 true 1)))) ∧
    generateTree "12V" [mkCell '1' 1 1 true 1, mkCell '2' 1 1 true 1] ≠
      stackBuild "12V" [mkCell '1' 1 1 true 1, mkCell '2' 1 1 true 1] := by
  have h1 : generateTree "12V" [mkCell '1' 1 1 true 1, mkCell '2' 1 1 true 1] =
      .ok (.op 'V' (some (.leaf (mkCell '2' 1 1 true 1)))
        (some (.leaf (mkCell '1' 1 1 true 1)))) := rfl
  have h2 : stackBuild "12V" [mkCell '1' 1 1 true 1, mkCell '2' 1 1 true 1] =
      .ok (.op 'V' (some (.leaf (mkCell '1' 1 1 true 1)))
        (some (.leaf (mkCell '2' 1 1 true 1)))) := rfl
  refine ⟨h1, h2, ?_⟩
  intro heq
  rw [h1, h2] at heq
  simp [mkCell] at heq

/-- C3 (amended): for every NPE accepted by the validator that contains at
least one operator, and every cell list in which each operand character has a
matching cell, the spec's stack-based builder succeeds with some tree, and
`generateTree` returns exactly the left-right mirror image of that tree (the
pointer walk makes the earlier postfix subexpression the left child, the
opposite of spec section 4.4); printing the returned tree with `operator<<`
reproduces the input NPE character for character. -/
theorem generateTree_mirrors_stack_build (npe : String) (cells : List Cell)
    (hv : isValidNPE npe = true)
    (hop : npe.data.any (fun ch => isOpChar ch) = true)
    (hcells : ∀ ch ∈ npe.data, isOpChar ch = false →
      (lookupCell cells ch).isSome = true) :
    ∃ t, stackBuild npe cells = .ok t ∧
      generateTree npe cells = .ok (mirror t) ∧
      printTree (mirror t) = some npe.data := by
  obtain ⟨e, hparse, hwf⟩ :=
    stackParse_of_counts npe.data 0 0 [] hv (by simp) (by simp)
  have hps : psE e = npe.data := by
    have := stackParse_segs npe.data [] [e] hparse
    simpa [segs] using this
  have hcells2 : ∀ ch ∈ psE e, isOpChar ch = false →
      (lookupCell cells ch).isSome = true := by
    rw [hps]
    exact hcells
  cases e with
  | operand c =>
    exfalso
    rw [← hps] at hop
    simp only [psE, List.any_cons, List.any_nil, Bool.or_false] at hop
    have hfalse : isOpChar c = false := hwf
    rw [hfalse] at hop
    exact Bool.false_ne_true hop
  | oper c later earlier =>
    obtain ⟨hc, hwfl, hwfe⟩ := hwf
    obtain ⟨tl, htl⟩ := toTreeC_isSome later cells hwfl (by
      intro ch hch hopch
      exact hcells2 ch (by simp [psE, hch]) hopch)
    obtain ⟨te, hte⟩ := toTreeC_isSome earlier cells hwfe (by
      intro ch hch hopch
      exact hcells2 ch (by simp [psE, hch]) hopch)
    have htc : toTreeC cells (.oper c later earlier) =
        some (.op c (some tl) (some te)) := by
      rw [toTreeC, htl, hte]
    obtain ⟨ts, hts⟩ :=
      toTreeS_isSome (.oper c later earlier) cells ⟨hc, hwfl, hwfe⟩ hcells2
    have hmir : STree.op c (some tl) (some te) = mirror ts :=
      toTreeC_eq_mirror_toTreeS _ cells _ ts htc hts
    obtain ⟨tst2, hf2, hsb⟩ := stackBuildAux_of_parse npe.data cells []
      [.oper c later earlier] [] hparse List.Forall₂.nil hcells
    obtain ⟨ts2, tst3, hts2, hf3, rfl⟩ := List.forall₂_cons_left_iff.mp hf2
    rcases hf3 with _ | _
    have hts3 : ts2 = ts := by
      rw [hts] at hts2
      exact ((Option.some.injEq _ _).mp hts2).symm
    subst hts3
    have hsb2 : stackBuild npe cells = .ok ts2 := by
      unfold stackBuild
      rw [if_neg (by simp [hv]), hsb]
      rfl
    have hrev : npe.data.reverse =
        c :: ((psE later).reverse ++ ((psE earlier).reverse ++ [])) := by
      rw [← hps, psE]
      simp [List.reverse_append, List.append_assoc]
    have hgt : generateTree npe cells = .ok (.op c (some tl) (some te)) := by
      rw [generateTree_eq, if_neg (by simp [hv]), hrev]
      show (match runChars cells [⟨c, none⟩]
          ((psE later).reverse ++ ((psE earlier).reverse ++ [])) with
        | .error e => Except.error e
        | .ok (.inr t) => .ok t
        | .ok (.inl fs) =>
          match readout fs with
          | some t => .ok t
          | none => .error "empty operator list") = _
      rw [runChars_expr later cells tl hwfl htl [⟨c, none⟩]
        ((psE earlier).reverse ++ [])]
      show (match runChars cells [⟨c, some tl⟩] ((psE earlier).reverse ++ [])
          with
        | .error e => Except.error e
        | .ok (.inr t) => .ok t
        | .ok (.inl fs) =>
          match readout fs with
          | some t => .ok t
          | none => .error "empty operator list") = _
      rw [runChars_expr earlier cells te hwfe hte [⟨c, some tl⟩] []]
      rfl
    refine ⟨ts2, hsb2, ?_, ?_⟩
    · rw [hgt, hmir]
    · rw [← hmir]
      have := printTree_toTreeC (.oper c later earlier) cells
        (.op c (some tl) (some te)) ⟨hc, hwfl, hwfe⟩ htc
      rw [this, hps]

/-- Witness for the amended C3 at the NPE "12V3V" with cells 1, 2, 3. -/
theorem generateTree_mirrors_stack_build_witness :
    ∃ t, stackBuild "12V3V"
        [mkCell '1' 1 1 true 1, mkCell '2' 1 1 true 1,
          mkCell '3' 1 1 true 1] = .ok t ∧
      generateTree "12V3V"
        [mkCell '1' 1 1 true 1, mkCell '2' 1 1 true 1,
          mkCell '3' 1 1 true 1] = .ok (mirror t) ∧
      printTree (mirror t) = some "12V3V".data :=
  generateTree_mirrors_stack_build "12V3V"
    [mkCell '1' 1 1 true 1, mkCell '2' 1 1 true 1, mkCell '3' 1 1 true 1]
    (by decide) (by decide) (by decide)
